import Mathlib

/-!
Shallow embedding of `src/index/inverted_index.rs`: an in-memory inverted
index with TF-IDF ranked single-term lookup.

Modelling conventions:
* `usize` document ids, lengths, frequencies and positions become `Nat`
  (the program only adds one and counts, so no wrap-around is reachable
  at these sizes).
* `std::collections::HashMap` becomes an association list with
  replace-in-place insertion (`alist_put`); a `HashMap` always has
  unique keys, its `len()` is the number of bindings, and `insert`
  replaces the binding of an existing key, which `alist_put` mirrors.
* `slice::binary_search` is modelled by `binary_search`, which realises
  the documented contract of the Rust function: on a sorted slice it
  returns `Ok i` with the index of a matching element and `Err i` with
  the insertion index that keeps the slice sorted.
* `f64` score arithmetic is modelled over `ℝ`, with `f64::log(self, 10.0)`
  as `Real.logb 10`; `Vec::sort_by` (a stable sort) is modelled with the
  stable `List.mergeSort`, and the comparator
  `b.1.partial_cmp(&a.1).unwrap_or(Equal)` becomes the total descending
  comparison on real scores, where `partial_cmp` never sees a `NaN`.
-/

/-- Model of `HashMap::get`: the value bound to `k₀`, if any. -/
def alist_get {κ ν : Type} [DecidableEq κ] : List (κ × ν) → κ → Option ν
  | [], _ => none
  | (k, v) :: rest, k₀ => if k = k₀ then some v else alist_get rest k₀

/-- Model of `HashMap::insert`: replace the binding of an existing key in
place, otherwise add a new binding. -/
def alist_put {κ ν : Type} [DecidableEq κ] : List (κ × ν) → κ → ν → List (κ × ν)
  | [], k₀, v₀ => [(k₀, v₀)]
  | (k, v) :: rest, k₀, v₀ =>
    if k = k₀ then (k₀, v₀) :: rest else (k, v) :: alist_put rest k₀ v₀

/-- `PostingList` from `inverted_index.rs`: per-term record of the sorted
document ids, the parallel term frequencies, and the parallel position
lists. -/
structure PostingList where
  doc_ids : List Nat
  term_frequencies : List Nat
  positions : List (List Nat)
deriving DecidableEq

/-- `PostingList::new`: build from the three sequences, no validation. -/
def PostingList.new (doc_ids : List Nat) (term_frequencies : List Nat)
    (positions : List (List Nat)) : PostingList :=
  ⟨doc_ids, term_frequencies, positions⟩

/-- `PostingList::default`: all three sequences empty. -/
def PostingList.empty : PostingList :=
  PostingList.new [] [] []

/-- Model of `slice::binary_search(&t)` on `doc_ids`, by its documented
contract: on a sorted slice, `Ok i` when the element at `i` matches `t`,
otherwise `Err i` with the insertion index that keeps the slice sorted.
(On an unsorted slice the Rust result is unspecified; this model then
still returns an in-bounds index, as the Rust implementation does.) -/
def binary_search : List Nat → Nat → Except Nat Nat
  | [], _ => .error 0
  | x :: xs, t =>
    if x < t then
      match binary_search xs t with
      | .ok i => .ok (i + 1)
      | .error i => .error (i + 1)
    else if x = t then .ok 0
    else .error 0

/-- `InvertedIndex` from `inverted_index.rs`: term → posting list, and
document id → most recently ingested token count. -/
structure InvertedIndex where
  postings : List (String × PostingList)
  doc_lengths : List (Nat × Nat)
deriving DecidableEq

/-- `InvertedIndex::new`. -/
def InvertedIndex.new (postings : List (String × PostingList))
    (doc_lengths : List (Nat × Nat)) : InvertedIndex :=
  ⟨postings, doc_lengths⟩

/-- `InvertedIndex::default`: both maps empty. -/
def InvertedIndex.empty : InvertedIndex :=
  InvertedIndex.new [] []

/-- Body of the `for (token, pos) in tokens` loop of `add_document`:
update the postings map with a single occurrence of `token` at offset
`pos` in document `doc_id`. -/
def add_token (m : List (String × PostingList)) (doc_id : Nat)
    (token : String) (pos : Nat) : List (String × PostingList) :=
  match alist_get m token with
  | none => alist_put m token (PostingList.new [doc_id] [1] [[pos]])
  | some posting =>
    match binary_search posting.doc_ids doc_id with
    | .ok i =>
        alist_put m token
          { posting with
              term_frequencies := List.modify (fun f => f + 1) i posting.term_frequencies,
              positions := List.modify (fun ps => ps ++ [pos]) i posting.positions }
    | .error i =>
        alist_put m token
          { doc_ids := List.insertIdx i doc_id posting.doc_ids,
            term_frequencies := List.insertIdx i 1 posting.term_frequencies,
            positions := List.insertIdx i [pos] posting.positions }

/-- `InvertedIndex::add_document`: record the token count of `doc_id`
(overwriting any previous count), then fold the loop body over the
`(term, position)` pairs in order. -/
def add_document (idx : InvertedIndex) (doc_id : Nat)
    (tokens : List (String × Nat)) : InvertedIndex :=
  { postings := tokens.foldl (fun m tp => add_token m doc_id tp.1 tp.2) idx.postings,
    doc_lengths := alist_put idx.doc_lengths doc_id tokens.length }

/-- The `filter_map` body of `rank`, producing `(doc_id, tf * idf)` for a
zipped `(doc_id, term_frequency)` pair, skipping documents with no or
zero recorded length. -/
noncomputable def score_fn (doc_lengths : List (Nat × Nat)) (idf : ℝ)
    (df : Nat × Nat) : Option (Nat × ℝ) :=
  match alist_get doc_lengths df.1 with
  | none => none
  | some doc_len =>
    if doc_len = 0 then none
    else some (df.1, ((df.2 : ℝ) / (doc_len : ℝ)) * idf)

/-- The `doc_tf_idf` vector of `rank` before sorting. -/
noncomputable def tf_idf_scores (doc_lengths : List (Nat × Nat))
    (posting : PostingList) (idf : ℝ) : List (Nat × ℝ) :=
  (posting.doc_ids.zip posting.term_frequencies).filterMap (score_fn doc_lengths idf)

/-- `rank` up to (and including) the `sort_by` call: the scored, sorted
survivor list, or `none` when the term has no posting list.
`sort_by(|a, b| b.1.partial_cmp(&a.1).unwrap_or(Equal))` is a stable sort
into descending score order; over `ℝ` the comparison is total, so the
comparator says `a` may precede `b` exactly when `b`'s score is ≤ `a`'s. -/
noncomputable def rank_scored (idx : InvertedIndex) (q : String) :
    Option (List (Nat × ℝ)) :=
  match alist_get idx.postings q with
  | none => none
  | some posting =>
    let n : ℝ := (idx.doc_lengths.length : ℝ)
    let n_t : ℝ := (posting.doc_ids.length : ℝ)
    let idf : ℝ := Real.logb 10 (n / n_t)
    some ((tf_idf_scores idx.doc_lengths posting idf).mergeSort
      (fun a b => decide (b.2 ≤ a.2)))

/-- `InvertedIndex::rank`: the document ids of the sorted survivor list
(scores are dropped by the final `map`). -/
noncomputable def rank (idx : InvertedIndex) (q : String) : Option (List Nat) :=
  (rank_scored idx q).map (List.map Prod.fst)

/-- The call `self.rank(q)` as a state transformer on the receiver:
`rank` takes `&self` (a shared borrow, and `InvertedIndex` has no
interior mutability), so the receiver after the call is the receiver
before it, paired with the returned value. -/
noncomputable def rank_call (idx : InvertedIndex) (q : String) :
    InvertedIndex × Option (List Nat) :=
  (idx, rank idx q)

/-! ## Derived observers and fixtures -/

/-- First index at which `d` occurs in a doc-id sequence. -/
def find_doc : List Nat → Nat → Option Nat
  | [], _ => none
  | x :: xs, d => if x = d then some 0 else (find_doc xs d).map (fun i => i + 1)

/-- The frequency/position entry a posting list holds for document `d`:
the parallel-array cells at the first index where `doc_ids` carries `d`. -/
def posting_entry (p : PostingList) (d : Nat) : Option (Nat × List Nat) :=
  match find_doc p.doc_ids d with
  | none => none
  | some i => some (p.term_frequencies.getD i 0, p.positions.getD i [])

/-- The entry stored for document `d` under term `t` in a postings map. -/
def entry_of (m : List (String × PostingList)) (t : String) (d : Nat) :
    Option (Nat × List Nat) :=
  match alist_get m t with
  | none => none
  | some p => posting_entry p d

/-- The entry stored for document `d` under term `t` in an index. -/
def index_entry (idx : InvertedIndex) (t : String) (d : Nat) :
    Option (Nat × List Nat) :=
  entry_of idx.postings t d

/-- Number of occurrences of term `t` in a token sequence. -/
def term_count (tokens : List (String × Nat)) (t : String) : Nat :=
  (tokens.filter (fun sp => sp.1 == t)).length

/-- The offsets carried by the occurrences of term `t`, in order. -/
def term_positions (tokens : List (String × Nat)) (t : String) : List Nat :=
  tokens.filterMap (fun sp => if sp.1 == t then some sp.2 else none)

/-- The Rust indexing and `Vec::insert` calls of one loop iteration of
`add_document` stay in bounds (no panic):
`term_frequencies[i] += 1` and `positions[i].push(pos)` need `i` within
both arrays, and the three `insert` calls need the insertion index to be
at most each length. -/
def add_token_safe (m : List (String × PostingList)) (d : Nat) (s : String) :
    Prop :=
  ∀ posting, alist_get m s = some posting →
    (∀ i, binary_search posting.doc_ids d = .ok i →
      i < posting.doc_ids.length ∧
      i < posting.term_frequencies.length ∧
      i < posting.positions.length) ∧
    (∀ i, binary_search posting.doc_ids d = .error i →
      i ≤ posting.doc_ids.length ∧
      i ≤ posting.term_frequencies.length ∧
      i ≤ posting.positions.length)

/-- Every iteration of the `add_document` loop stays in bounds. -/
def tokens_safe (m : List (String × PostingList)) (d : Nat) :
    List (String × Nat) → Prop
  | [] => True
  | sp :: rest =>
    add_token_safe m d sp.1 ∧ tokens_safe (add_token m d sp.1 sp.2) d rest

/-- The ranking example: doc 1 = "rust", doc 2 = "rust rust extra",
doc 3 = "extra". -/
def rank_example : InvertedIndex :=
  add_document
    (add_document (add_document InvertedIndex.empty 1 [("rust", 0)])
      2 [("rust", 0), ("rust", 1), ("extra", 2)])
    3 [("extra", 0)]

/-- The sorted-insert example: ingest doc 10, then doc 3, then doc 7,
each containing "term" once. -/
def sorted_insert_example : InvertedIndex :=
  add_document
    (add_document (add_document InvertedIndex.empty 10 [("term", 0)])
      3 [("term", 0)]) 7 [("term", 0)]

/-- Fixture built through `PostingList::new` (no validation) whose
frequency array is shorter than its doc-id array: doc 2 is listed but has
no frequency cell, although it has a nonzero recorded length. -/
def truncated_fixture : InvertedIndex :=
  InvertedIndex.new [("term", PostingList.new [1, 2] [1] [[0]])]
    [(1, 1), (2, 1)]

/-- A second misaligned fixture of the same shape, with nodup doc ids. -/
def truncated_fixture2 : InvertedIndex :=
  InvertedIndex.new [("w", PostingList.new [3, 4] [1] [[0]])]
    [(3, 1), (4, 2)]

/-- Fixture of the Rust test `rank_skips_docs_without_length_info`: a
posting list exists but `doc_lengths` is empty. -/
def no_lengths_fixture : InvertedIndex :=
  InvertedIndex.new [("term", PostingList.new [1] [2] [[0, 1]])] []

/-! ## Invariants -/

/-- The parallel-array alignment invariant of a posting list, in the
worker form used by the proofs: the frequency sequence is exactly the
pointwise length of the position sequence, and `doc_ids` keeps pace. -/
def Aligned (p : PostingList) : Prop :=
  p.doc_ids.length = p.positions.length ∧
  p.term_frequencies = p.positions.map List.length

/-- The parallel-array alignment invariant exactly as the specification
states it: the three sequences have equal length and
`term_frequencies[i] = positions[i].len()` at every index. -/
def aligned_claim (p : PostingList) : Prop :=
  p.doc_ids.length = p.term_frequencies.length ∧
  p.term_frequencies.length = p.positions.length ∧
  ∀ i, i < p.positions.length →
    p.term_frequencies.getD i 0 = (p.positions.getD i []).length

/-- Sortedness invariant of a posting list: strictly increasing doc ids. -/
def SortedIds (p : PostingList) : Prop :=
  List.Pairwise (· < ·) p.doc_ids

instance (p : PostingList) : Decidable (SortedIds p) := by
  unfold SortedIds; infer_instance

instance (p : PostingList) : Decidable (Aligned p) := by
  unfold Aligned; exact instDecidableAnd

/-- Every posting list reachable by lookup is strictly sorted. -/
def postings_sorted (m : List (String × PostingList)) : Prop :=
  ∀ t p, alist_get m t = some p → SortedIds p

/-- Every posting list reachable by lookup satisfies alignment. -/
def postings_aligned (m : List (String × PostingList)) : Prop :=
  ∀ t p, alist_get m t = some p → Aligned p

theorem aligned_claim_iff (p : PostingList) : aligned_claim p ↔ Aligned p := by
  constructor
  · rintro ⟨h1, h2, h3⟩
    refine ⟨by rw [h1, h2], ?_⟩
    apply List.ext_getElem (by simpa using h2)
    intro n hn1 hn2
    have hn : n < p.positions.length := by simpa using hn2
    have := h3 n hn
    rw [List.getD_eq_getElem _ _ (by omega), List.getD_eq_getElem _ _ hn] at this
    simpa [List.getElem_map] using this
  · rintro ⟨h1, h2⟩
    have hlen : p.term_frequencies.length = p.positions.length := by
      rw [h2]; simp
    refine ⟨by rw [h1, hlen], hlen, ?_⟩
    intro i hi
    rw [h2, List.getD_eq_getElem _ _ (by simpa using hi),
      List.getD_eq_getElem _ _ hi, List.getElem_map]

/-! ## Association-list lemmas -/

theorem alist_get_put {κ ν : Type} [DecidableEq κ] (m : List (κ × ν))
    (k j : κ) (v : ν) :
    alist_get (alist_put m k v) j = if k = j then some v else alist_get m j := by
  induction m with
  | nil => by_cases h : k = j <;> simp [alist_put, alist_get, h]
  | cons a m ih =>
    obtain ⟨a1, a2⟩ := a
    by_cases h1 : a1 = k
    · subst h1
      by_cases h2 : a1 = j <;> simp [alist_put, alist_get, h2]
    · by_cases h2 : a1 = j
      · subst h2
        have : ¬ k = a1 := fun h => h1 h.symm
        simp [alist_put, alist_get, h1, this]
      · simp [alist_put, alist_get, h1, h2, ih]

/-! ## Lemmas on the binary-search model -/

theorem binary_search_ok_lt {xs : List Nat} {t i : Nat}
    (h : binary_search xs t = .ok i) : i < xs.length := by
  induction xs generalizing i with
  | nil => simp [binary_search] at h
  | cons x xs ih =>
    by_cases hx : x < t
    · cases hr : binary_search xs t with
      | ok j =>
        simp [binary_search, hx, hr] at h
        have := ih hr
        simp only [List.length_cons]
        omega
      | error j => simp [binary_search, hx, hr] at h
    · by_cases he : x = t
      · simp [binary_search, hx, he] at h
        subst h
        simp
      · simp [binary_search, hx, he] at h

theorem binary_search_err_le {xs : List Nat} {t i : Nat}
    (h : binary_search xs t = .error i) : i ≤ xs.length := by
  induction xs generalizing i with
  | nil =>
    simp [binary_search] at h
    omega
  | cons x xs ih =>
    by_cases hx : x < t
    · cases hr : binary_search xs t with
      | ok j => simp [binary_search, hx, hr] at h
      | error j =>
        simp [binary_search, hx, hr] at h
        have := ih hr
        simp only [List.length_cons]
        omega
    · by_cases he : x = t
      · simp [binary_search, hx, he] at h
      · simp [binary_search, hx, he] at h
        omega

theorem binary_search_err_take {xs : List Nat} {t i : Nat}
    (h : binary_search xs t = .error i) :
    ∀ a ∈ xs.take i, a < t := by
  induction xs generalizing i with
  | nil => simp
  | cons x xs ih =>
    by_cases hx : x < t
    · cases hr : binary_search xs t with
      | ok j => simp [binary_search, hx, hr] at h
      | error j =>
        simp [binary_search, hx, hr] at h
        subst h
        intro a ha
        rw [List.take_succ_cons] at ha
        rcases List.mem_cons.mp ha with rfl | ha'
        · exact hx
        · exact ih hr a ha'
    · by_cases he : x = t
      · simp [binary_search, hx, he] at h
      · simp [binary_search, hx, he] at h
        subst h
        simp

theorem binary_search_err_drop {xs : List Nat} {t i : Nat}
    (hs : List.Pairwise (· < ·) xs) (h : binary_search xs t = .error i) :
    ∀ a ∈ xs.drop i, t < a := by
  induction xs generalizing i with
  | nil => simp
  | cons x xs ih =>
    by_cases hx : x < t
    · cases hr : binary_search xs t with
      | ok j => simp [binary_search, hx, hr] at h
      | error j =>
        simp [binary_search, hx, hr] at h
        subst h
        rw [List.drop_succ_cons]
        exact ih (List.Pairwise.of_cons hs) hr
    · by_cases he : x = t
      · simp [binary_search, hx, he] at h
      · simp [binary_search, hx, he] at h
        subst h
        rw [List.drop_zero]
        intro a ha
        have hxt : t < x := by omega
        rcases List.mem_cons.mp ha with rfl | ha'
        · exact hxt
        · exact lt_trans hxt (List.rel_of_pairwise_cons hs ha')

theorem binary_search_err_not_mem {xs : List Nat} {t i : Nat}
    (hs : List.Pairwise (· < ·) xs) (h : binary_search xs t = .error i) :
    t ∉ xs := by
  intro hm
  rw [← List.take_append_drop i xs] at hm
  rcases List.mem_append.mp hm with h1 | h1
  · exact absurd (binary_search_err_take h t h1) (lt_irrefl t)
  · exact absurd (binary_search_err_drop hs h t h1) (lt_irrefl t)

theorem binary_search_ok_find_doc {xs : List Nat} {t i : Nat}
    (h : binary_search xs t = .ok i) : find_doc xs t = some i := by
  induction xs generalizing i with
  | nil => simp [binary_search] at h
  | cons x xs ih =>
    by_cases hx : x < t
    · cases hr : binary_search xs t with
      | ok j =>
        simp [binary_search, hx, hr] at h
        subst h
        have hne : ¬ x = t := by omega
        simp [find_doc, hne, ih hr]
      | error j => simp [binary_search, hx, hr] at h
    · by_cases he : x = t
      · simp [binary_search, hx, he] at h
        subst h
        simp [find_doc, he]
      · simp [binary_search, hx, he] at h

theorem find_doc_eq_none {xs : List Nat} {d : Nat} (h : d ∉ xs) :
    find_doc xs d = none := by
  induction xs with
  | nil => simp [find_doc]
  | cons x xs ih =>
    have h1 : ¬ x = d := by
      rintro rfl
      exact h (List.mem_cons_self x xs)
    have h2 : d ∉ xs := fun hm => h (List.mem_cons_of_mem x hm)
    simp [find_doc, h1, ih h2]

theorem find_doc_insertIdx_of_err {xs : List Nat} {d i : Nat}
    (h : binary_search xs d = .error i) :
    find_doc (List.insertIdx i d xs) d = some i := by
  induction xs generalizing i with
  | nil =>
    simp [binary_search] at h
    subst h
    simp [List.insertIdx_zero, find_doc]
  | cons x xs ih =>
    by_cases hx : x < d
    · cases hr : binary_search xs d with
      | ok j => simp [binary_search, hx, hr] at h
      | error j =>
        simp [binary_search, hx, hr] at h
        subst h
        rw [List.insertIdx_succ_cons]
        have hne : ¬ x = d := by omega
        simp [find_doc, hne, ih hr]
    · by_cases he : x = d
      · simp [binary_search, hx, he] at h
      · simp [binary_search, hx, he] at h
        subst h
        simp [List.insertIdx_zero, find_doc]

theorem getD_insertIdx_self {α : Type} {l : List α} {i : Nat} (a dflt : α)
    (h : i ≤ l.length) : (List.insertIdx i a l).getD i dflt = a := by
  induction l generalizing i with
  | nil =>
    have hi : i = 0 := by simpa using h
    subst hi
    simp [List.insertIdx_zero]
  | cons x xs ih =>
    cases i with
    | zero => simp [List.insertIdx_zero]
    | succ j =>
      rw [List.insertIdx_succ_cons, List.getD_cons_succ]
      exact ih (by simpa using h)

theorem getD_modify_self {α : Type} {l : List α} {i : Nat} (f : α → α)
    (dflt : α) (h : i < l.length) :
    (List.modify f i l).getD i dflt = f (l.getD i dflt) := by
  rw [List.getD_eq_getElem _ _ (by simpa [List.length_modify] using h),
    List.getD_eq_getElem _ _ h, List.getElem_modify]
  simp

theorem map_modify {α β : Type} (f : α → α) (g : α → β) (f' : β → β)
    (hc : ∀ a, g (f a) = f' (g a)) (i : Nat) (l : List α) :
    (List.modify f i l).map g = List.modify f' i (l.map g) := by
  apply List.ext_getElem
  · simp [List.length_modify]
  · intro n h1 h2
    have hn : n < l.length := by simpa [List.length_modify] using h1
    rw [List.getElem_map, List.getElem_modify, List.getElem_modify]
    by_cases hni : i = n
    · simp [hni, List.getElem_map, hc]
    · simp [hni, List.getElem_map]

theorem map_insertIdx {α β : Type} (g : α → β) (i : Nat) (a : α) (l : List α) :
    (List.insertIdx i a l).map g = List.insertIdx i (g a) (l.map g) := by
  induction l generalizing i with
  | nil =>
    cases i with
    | zero => simp
    | succ j => simp [List.insertIdx_succ_nil]
  | cons x xs ih =>
    cases i with
    | zero => simp
    | succ j => simp [List.insertIdx_succ_cons, ih]

theorem mem_of_mem_insertIdx {α : Type} {a b : α} {i : Nat} {l : List α}
    (h : a ∈ List.insertIdx i b l) : a = b ∨ a ∈ l := by
  induction l generalizing i with
  | nil =>
    cases i with
    | zero =>
      rw [List.insertIdx_zero] at h
      simpa using h
    | succ j => simp [List.insertIdx_succ_nil] at h
  | cons x xs ih =>
    cases i with
    | zero =>
      rw [List.insertIdx_zero] at h
      rcases List.mem_cons.mp h with rfl | h'
      · exact Or.inl rfl
      · exact Or.inr h'
    | succ j =>
      rw [List.insertIdx_succ_cons] at h
      rcases List.mem_cons.mp h with rfl | h'
      · exact Or.inr (List.mem_cons_self _ _)
      · rcases ih h' with h'' | h''
        · exact Or.inl h''
        · exact Or.inr (List.mem_cons_of_mem _ h'')

theorem pairwise_insertIdx_of_err {xs : List Nat} {t i : Nat}
    (hs : List.Pairwise (· < ·) xs) (h : binary_search xs t = .error i) :
    List.Pairwise (· < ·) (List.insertIdx i t xs) := by
  induction xs generalizing i with
  | nil =>
    simp [binary_search] at h
    subst h
    simp
  | cons x xs ih =>
    by_cases hx : x < t
    · cases hr : binary_search xs t with
      | ok j => simp [binary_search, hx, hr] at h
      | error j =>
        simp [binary_search, hx, hr] at h
        subst h
        rw [List.insertIdx_succ_cons]
        rw [List.pairwise_cons] at hs ⊢
        obtain ⟨hall, htail⟩ := hs
        refine ⟨?_, ih htail hr⟩
        intro a ha
        rcases mem_of_mem_insertIdx ha with rfl | ha'
        · exact hx
        · exact hall a ha'
    · by_cases he : x = t
      · simp [binary_search, hx, he] at h
      · simp [binary_search, hx, he] at h
        subst h
        rw [List.insertIdx_zero, List.pairwise_cons]
        have hxt : t < x := by omega
        refine ⟨?_, hs⟩
        intro a ha
        rcases List.mem_cons.mp ha with rfl | ha'
        · exact hxt
        · exact lt_trans hxt (List.rel_of_pairwise_cons hs ha')

/-! ## Preservation of the posting-list invariants by ingestion -/

theorem sorted_add_token {m : List (String × PostingList)} {d : Nat}
    (s : String) (p : Nat) (hm : postings_sorted m) :
    postings_sorted (add_token m d s p) := by
  have key : ∃ v, add_token m d s p = alist_put m s v ∧ SortedIds v := by
    cases hg : alist_get m s with
    | none =>
      refine ⟨PostingList.new [d] [1] [[p]], ?_, ?_⟩
      · simp only [add_token, hg]
      · simp [SortedIds, PostingList.new]
    | some posting =>
      have hpost := hm s posting hg
      cases hb : binary_search posting.doc_ids d with
      | ok i =>
        refine ⟨{ posting with
            term_frequencies := List.modify (fun f => f + 1) i posting.term_frequencies,
            positions := List.modify (fun ps => ps ++ [p]) i posting.positions }, ?_, ?_⟩
        · simp only [add_token, hg, hb]
        · exact hpost
      | error i =>
        refine ⟨⟨List.insertIdx i d posting.doc_ids,
            List.insertIdx i 1 posting.term_frequencies,
            List.insertIdx i [p] posting.positions⟩, ?_, ?_⟩
        · simp only [add_token, hg, hb]
        · exact pairwise_insertIdx_of_err hpost hb
  obtain ⟨v, heq, hv⟩ := key
  intro t q hq
  rw [heq, alist_get_put] at hq
  by_cases hst : s = t
  · rw [if_pos hst] at hq
    injection hq with hq
    subst hq
    exact hv
  · rw [if_neg hst] at hq
    exact hm t q hq

theorem aligned_add_token {m : List (String × PostingList)} {d : Nat}
    (s : String) (p : Nat) (hm : postings_aligned m) :
    postings_aligned (add_token m d s p) := by
  have key : ∃ v, add_token m d s p = alist_put m s v ∧ Aligned v := by
    cases hg : alist_get m s with
    | none =>
      refine ⟨PostingList.new [d] [1] [[p]], ?_, ?_⟩
      · simp only [add_token, hg]
      · simp [Aligned, PostingList.new]
    | some posting =>
      obtain ⟨hlen, hmap⟩ := hm s posting hg
      cases hb : binary_search posting.doc_ids d with
      | ok i =>
        refine ⟨{ posting with
            term_frequencies := List.modify (fun f => f + 1) i posting.term_frequencies,
            positions := List.modify (fun ps => ps ++ [p]) i posting.positions }, ?_, ?_, ?_⟩
        · simp only [add_token, hg, hb]
        · simpa [List.length_modify] using hlen
        · show List.modify (fun f => f + 1) i posting.term_frequencies =
            (List.modify (fun ps => ps ++ [p]) i posting.positions).map List.length
          rw [map_modify (fun ps => ps ++ [p]) List.length (fun f => f + 1)
            (by intro a; simp) i posting.positions, hmap]
      | error i =>
        have hi : i ≤ posting.doc_ids.length := binary_search_err_le hb
        have hi' : i ≤ posting.positions.length := by
          rw [← hlen]; exact hi
        refine ⟨⟨List.insertIdx i d posting.doc_ids,
            List.insertIdx i 1 posting.term_frequencies,
            List.insertIdx i [p] posting.positions⟩, ?_, ?_, ?_⟩
        · simp only [add_token, hg, hb]
        · show (List.insertIdx i d posting.doc_ids).length =
            (List.insertIdx i [p] posting.positions).length
          rw [List.length_insertIdx _ _ hi, List.length_insertIdx _ _ hi', hlen]
        · show List.insertIdx i 1 posting.term_frequencies =
            (List.insertIdx i [p] posting.positions).map List.length
          rw [map_insertIdx List.length i [p] posting.positions, hmap]
          simp
  obtain ⟨v, heq, hv⟩ := key
  intro t q hq
  rw [heq, alist_get_put] at hq
  by_cases hst : s = t
  · rw [if_pos hst] at hq
    injection hq with hq
    subst hq
    exact hv
  · rw [if_neg hst] at hq
    exact hm t q hq

theorem sorted_fold_tokens {d : Nat} (tokens : List (String × Nat)) :
    ∀ m, postings_sorted m →
      postings_sorted (tokens.foldl (fun mm tp => add_token mm d tp.1 tp.2) m) := by
  induction tokens with
  | nil => intro m hm; exact hm
  | cons sp rest ih =>
    intro m hm
    exact ih _ (sorted_add_token sp.1 sp.2 hm)

theorem aligned_fold_tokens {d : Nat} (tokens : List (String × Nat)) :
    ∀ m, postings_aligned m →
      postings_aligned (tokens.foldl (fun mm tp => add_token mm d tp.1 tp.2) m) := by
  induction tokens with
  | nil => intro m hm; exact hm
  | cons sp rest ih =>
    intro m hm
    exact ih _ (aligned_add_token sp.1 sp.2 hm)

theorem sorted_add_document {idx : InvertedIndex} {d : Nat}
    {tokens : List (String × Nat)} (hm : postings_sorted idx.postings) :
    postings_sorted (add_document idx d tokens).postings :=
  sorted_fold_tokens tokens idx.postings hm

theorem aligned_add_document {idx : InvertedIndex} {d : Nat}
    {tokens : List (String × Nat)} (hm : postings_aligned idx.postings) :
    postings_aligned (add_document idx d tokens).postings :=
  aligned_fold_tokens tokens idx.postings hm

theorem empty_postings_sorted : postings_sorted InvertedIndex.empty.postings := by
  intro t p hp
  simp [InvertedIndex.empty, InvertedIndex.new, alist_get] at hp

theorem empty_postings_aligned : postings_aligned InvertedIndex.empty.postings := by
  intro t p hp
  simp [InvertedIndex.empty, InvertedIndex.new, alist_get] at hp

theorem sorted_ingest_fold (calls : List (Nat × List (String × Nat))) :
    postings_sorted
      ((calls.foldl (fun i c => add_document i c.1 c.2)
        InvertedIndex.empty).postings) := by
  have main : ∀ idx, postings_sorted idx.postings →
      postings_sorted
        ((calls.foldl (fun i c => add_document i c.1 c.2) idx).postings) := by
    induction calls with
    | nil => intro idx h; exact h
    | cons c rest ih =>
      intro idx h
      exact ih _ (sorted_add_document h)
  exact main InvertedIndex.empty empty_postings_sorted

/-! ## Frame lemmas for ingestion -/

theorem add_token_get_ne {m : List (String × PostingList)} {d : Nat}
    {s t : String} (p : Nat) (h : ¬ s = t) :
    alist_get (add_token m d s p) t = alist_get m t := by
  cases hg : alist_get m s with
  | none =>
    simp only [add_token, hg]
    rw [alist_get_put, if_neg h]
  | some posting =>
    cases hb : binary_search posting.doc_ids d with
    | ok i =>
      simp only [add_token, hg, hb]
      rw [alist_get_put, if_neg h]
    | error i =>
      simp only [add_token, hg, hb]
      rw [alist_get_put, if_neg h]

theorem fold_tokens_get_not_mem {d : Nat} (tokens : List (String × Nat)) :
    ∀ m t, t ∉ tokens.map Prod.fst →
      alist_get (tokens.foldl (fun mm tp => add_token mm d tp.1 tp.2) m) t =
        alist_get m t := by
  induction tokens with
  | nil => intro m t _; rfl
  | cons sp rest ih =>
    intro m t ht
    have h1 : ¬ sp.1 = t := by
      intro he
      exact ht (by simp [he])
    have h2 : t ∉ rest.map Prod.fst := by
      intro hm
      exact ht (by simp [hm])
    rw [List.foldl_cons, ih _ t h2, add_token_get_ne sp.2 h1]

theorem add_document_doc_lengths_ne {idx : InvertedIndex} {doc_id : Nat}
    (tokens : List (String × Nat)) {d' : Nat} (h : ¬ doc_id = d') :
    alist_get (add_document idx doc_id tokens).doc_lengths d' =
      alist_get idx.doc_lengths d' := by
  show alist_get (alist_put idx.doc_lengths doc_id tokens.length) d' = _
  rw [alist_get_put, if_neg h]

theorem add_document_doc_lengths_self (idx : InvertedIndex) (doc_id : Nat)
    (tokens : List (String × Nat)) :
    alist_get (add_document idx doc_id tokens).doc_lengths doc_id =
      some tokens.length := by
  show alist_get (alist_put idx.doc_lengths doc_id tokens.length) doc_id = _
  rw [alist_get_put, if_pos rfl]

/-! ## How one ingestion call evolves a document's entry for a term -/

theorem term_count_cons_self (t : String) (p : Nat)
    (rest : List (String × Nat)) :
    term_count ((t, p) :: rest) t = term_count rest t + 1 := by
  simp [term_count, List.filter_cons]

theorem term_count_cons_ne {s t : String} (h : ¬ s = t) (p : Nat)
    (rest : List (String × Nat)) :
    term_count ((s, p) :: rest) t = term_count rest t := by
  simp [term_count, List.filter_cons, h]

theorem term_positions_cons_self (t : String) (p : Nat)
    (rest : List (String × Nat)) :
    term_positions ((t, p) :: rest) t = p :: term_positions rest t := by
  simp [term_positions, List.filterMap_cons]

theorem term_positions_cons_ne {s t : String} (h : ¬ s = t) (p : Nat)
    (rest : List (String × Nat)) :
    term_positions ((s, p) :: rest) t = term_positions rest t := by
  simp [term_positions, List.filterMap_cons, h]

theorem entry_of_add_token_ne {m : List (String × PostingList)} {dd d : Nat}
    {s t : String} (p : Nat) (h : ¬ s = t) :
    entry_of (add_token m dd s p) t d = entry_of m t d := by
  unfold entry_of
  rw [add_token_get_ne p h]

theorem entry_of_add_token_self {m : List (String × PostingList)} {d : Nat}
    {t : String} (p : Nat) (hs : postings_sorted m) (ha : postings_aligned m) :
    entry_of (add_token m d t p) t d =
      match entry_of m t d with
      | none => some (1, [p])
      | some fps => some (fps.1 + 1, fps.2 ++ [p]) := by
  cases hg : alist_get m t with
  | none =>
    have h1 : alist_get (add_token m d t p) t =
        some (PostingList.new [d] [1] [[p]]) := by
      simp only [add_token, hg]
      rw [alist_get_put, if_pos rfl]
    unfold entry_of
    rw [h1, hg]
    simp [posting_entry, PostingList.new, find_doc]
  | some posting =>
    have hpsort := hs t posting hg
    obtain ⟨hlen, hmap⟩ := ha t posting hg
    have htf : posting.term_frequencies.length = posting.positions.length := by
      rw [hmap]; simp
    cases hb : binary_search posting.doc_ids d with
    | ok i =>
      have hfd := binary_search_ok_find_doc hb
      have hilt : i < posting.doc_ids.length := binary_search_ok_lt hb
      have h1 : alist_get (add_token m d t p) t = some
          { posting with
              term_frequencies :=
                List.modify (fun f => f + 1) i posting.term_frequencies,
              positions :=
                List.modify (fun ps => ps ++ [p]) i posting.positions } := by
        simp only [add_token, hg, hb]
        rw [alist_get_put, if_pos rfl]
      unfold entry_of
      rw [h1, hg]
      simp only [posting_entry, hfd]
      rw [getD_modify_self _ _ (by omega), getD_modify_self _ _ (by omega)]
    | error i =>
      have hnm := binary_search_err_not_mem hpsort hb
      have hile : i ≤ posting.doc_ids.length := binary_search_err_le hb
      have h1 : alist_get (add_token m d t p) t = some
          (⟨List.insertIdx i d posting.doc_ids,
            List.insertIdx i 1 posting.term_frequencies,
            List.insertIdx i [p] posting.positions⟩ : PostingList) := by
        simp only [add_token, hg, hb]
        rw [alist_get_put, if_pos rfl]
      unfold entry_of
      rw [h1, hg]
      simp only [posting_entry, find_doc_insertIdx_of_err hb,
        find_doc_eq_none hnm]
      rw [getD_insertIdx_self _ _ (by omega), getD_insertIdx_self _ _ (by omega)]

theorem entry_of_fold {d : Nat} (tokens : List (String × Nat)) :
    ∀ m t, postings_sorted m → postings_aligned m →
      entry_of (tokens.foldl (fun mm tp => add_token mm d tp.1 tp.2) m) t d =
        match entry_of m t d with
        | none =>
          if term_count tokens t = 0 then none
          else some (term_count tokens t, term_positions tokens t)
        | some fps =>
          some (fps.1 + term_count tokens t, fps.2 ++ term_positions tokens t) := by
  induction tokens with
  | nil =>
    intro m t _ _
    cases he : entry_of m t d <;> simp [term_count, term_positions, he]
  | cons sp rest ih =>
    intro m t hs ha
    obtain ⟨s, p⟩ := sp
    rw [List.foldl_cons]
    have hs' : postings_sorted (add_token m d s p) := sorted_add_token _ _ hs
    have ha' : postings_aligned (add_token m d s p) := aligned_add_token _ _ ha
    rw [ih _ t hs' ha']
    by_cases hst : s = t
    · subst hst
      rw [entry_of_add_token_self p hs ha,
        term_count_cons_self, term_positions_cons_self]
      cases he : entry_of m s d with
      | none =>
        simp only [he]
        have : ¬ term_count rest s + 1 = 0 := by omega
        simp [this, Nat.add_comm]
      | some fps =>
        simp only [he]
        have h1 : fps.1 + 1 + term_count rest s =
            fps.1 + (term_count rest s + 1) := by omega
        simp [h1]
    · rw [entry_of_add_token_ne p hst, term_count_cons_ne hst,
        term_positions_cons_ne hst]

/-! ## Lemmas on ranking -/

theorem rank_scored_pairwise {idx : InvertedIndex} {q : String}
    {l : List (Nat × ℝ)} (h : rank_scored idx q = some l) :
    List.Pairwise (fun a b : Nat × ℝ => b.2 ≤ a.2) l := by
  cases hg : alist_get idx.postings q with
  | none => simp [rank_scored, hg] at h
  | some posting =>
    simp only [rank_scored, hg, Option.some.injEq] at h
    subst h
    refine List.Pairwise.imp (fun hab => by simpa using hab)
      (List.sorted_mergeSort ?_ ?_ _)
    · intro a b c hab hbc
      simp only [decide_eq_true_eq] at hab hbc ⊢
      exact le_trans hbc hab
    · intro a b
      simp only [Bool.or_eq_true, decide_eq_true_eq]
      exact le_total b.2 a.2

theorem score_fn_some_elim {dl : List (Nat × Nat)} {idf : ℝ} {df : Nat × Nat}
    {x : Nat × ℝ} (h : score_fn dl idf df = some x) :
    ∃ len, alist_get dl df.1 = some len ∧ len ≠ 0 ∧
      x = (df.1, ((df.2 : ℝ) / (len : ℝ)) * idf) := by
  cases hget : alist_get dl df.1 with
  | none => simp [score_fn, hget] at h
  | some len =>
    by_cases hz : len = 0
    · simp [score_fn, hget, hz] at h
    · simp only [score_fn, hget, if_neg hz, Option.some.injEq] at h
      exact ⟨len, rfl, hz, h.symm⟩

theorem score_fn_fst {dl : List (Nat × Nat)} {idf : ℝ} {df : Nat × Nat}
    {x : Nat × ℝ} (h : score_fn dl idf df = some x) : x.1 = df.1 := by
  obtain ⟨len, _, _, hx⟩ := score_fn_some_elim h
  rw [hx]

theorem mem_tf_idf_scores_fst {dl : List (Nat × Nat)} {p : PostingList}
    {idf : ℝ} {d : Nat} :
    d ∈ (tf_idf_scores dl p idf).map Prod.fst ↔
      (∃ f, (d, f) ∈ p.doc_ids.zip p.term_frequencies) ∧
      ∃ len, alist_get dl d = some len ∧ len ≠ 0 := by
  constructor
  · intro h
    obtain ⟨x, hmem, hx⟩ := List.mem_map.mp h
    unfold tf_idf_scores at hmem
    obtain ⟨df, hdf, hsc⟩ := List.mem_filterMap.mp hmem
    obtain ⟨len, hget, hz, hxe⟩ := score_fn_some_elim hsc
    have hd1 : df.1 = d := by
      rw [hxe] at hx
      exact hx
    refine ⟨⟨df.2, ?_⟩, ⟨len, ?_, hz⟩⟩
    · rw [← hd1]
      exact hdf
    · rw [← hd1]
      exact hget
  · rintro ⟨⟨f, hf⟩, ⟨len, hlen, hz⟩⟩
    apply List.mem_map.mpr
    refine ⟨(d, (f : ℝ) / (len : ℝ) * idf), ?_, rfl⟩
    unfold tf_idf_scores
    apply List.mem_filterMap.mpr
    refine ⟨(d, f), hf, ?_⟩
    simp [score_fn, hlen, hz]

theorem tf_idf_scores_fst_sublist (dl : List (Nat × Nat)) (idf : ℝ) :
    ∀ (ids tfs : List Nat),
      (((ids.zip tfs).filterMap (score_fn dl idf)).map Prod.fst).Sublist ids := by
  intro ids
  induction ids with
  | nil => intro tfs; simp
  | cons a as ih =>
    intro tfs
    cases tfs with
    | nil => simp
    | cons b bs =>
      rw [List.zip_cons_cons, List.filterMap_cons]
      cases hsc : score_fn dl idf (a, b) with
      | none => exact (ih bs).cons a
      | some x =>
        rw [List.map_cons, score_fn_fst hsc]
        exact (ih bs).cons₂ a

theorem exists_zip_of_mem {ids tfs : List Nat} {d : Nat}
    (hlen : ids.length ≤ tfs.length) (h : d ∈ ids) :
    ∃ f, (d, f) ∈ ids.zip tfs := by
  induction ids generalizing tfs with
  | nil => simp at h
  | cons a as ih =>
    cases tfs with
    | nil => simp at hlen
    | cons b bs =>
      rcases List.mem_cons.mp h with rfl | h'
      · exact ⟨b, by simp⟩
      · obtain ⟨f, hf⟩ := ih (by simpa using hlen) h'
        exact ⟨f, List.mem_cons_of_mem _ hf⟩

theorem rank_res_perm {idx : InvertedIndex} {q : String} {posting : PostingList}
    {res : List Nat}
    (hg : alist_get idx.postings q = some posting)
    (hr : rank idx q = some res) :
    res.Perm ((tf_idf_scores idx.doc_lengths posting
      (Real.logb 10 ((idx.doc_lengths.length : ℝ) /
        (posting.doc_ids.length : ℝ)))).map Prod.fst) := by
  simp only [rank, rank_scored, hg, Option.map_some', Option.some.injEq] at hr
  rw [← hr]
  exact (List.mergeSort_perm _ _).map Prod.fst

theorem rank_mem_iff {idx : InvertedIndex} {q : String} {posting : PostingList}
    {res : List Nat}
    (hg : alist_get idx.postings q = some posting)
    (hlen : posting.doc_ids.length ≤ posting.term_frequencies.length)
    (hr : rank idx q = some res) :
    ∀ d, d ∈ res ↔
      d ∈ posting.doc_ids ∧
      ∃ len, alist_get idx.doc_lengths d = some len ∧ len ≠ 0 := by
  intro d
  rw [(rank_res_perm hg hr).mem_iff, mem_tf_idf_scores_fst]
  constructor
  · rintro ⟨⟨f, hf⟩, hc⟩
    exact ⟨(List.of_mem_zip hf).1, hc⟩
  · rintro ⟨hd, hc⟩
    obtain ⟨f, hf⟩ := exists_zip_of_mem hlen hd
    exact ⟨⟨f, hf⟩, hc⟩

theorem rank_some_of_posting {idx : InvertedIndex} {q : String}
    {posting : PostingList} (hg : alist_get idx.postings q = some posting) :
    ∃ res, rank idx q = some res := by
  simp [rank, rank_scored, hg]

theorem tokens_safe_of_aligned {d : Nat} (tokens : List (String × Nat)) :
    ∀ m, postings_aligned m → tokens_safe m d tokens := by
  induction tokens with
  | nil => intro m _; trivial
  | cons sp rest ih =>
    intro m hm
    refine ⟨?_, ih _ (aligned_add_token sp.1 sp.2 hm)⟩
    intro posting hg
    obtain ⟨hlen, hmap⟩ := hm sp.1 posting hg
    have htf : posting.term_frequencies.length = posting.positions.length := by
      rw [hmap]; simp
    constructor
    · intro i hb
      have hi := binary_search_ok_lt hb
      exact ⟨hi, by omega, by omega⟩
    · intro i hb
      have hi := binary_search_err_le hb
      exact ⟨hi, by omega, by omega⟩

theorem term_count_ne_zero_of_mem {tokens : List (String × Nat)} {t : String}
    (h : t ∈ tokens.map Prod.fst) : term_count tokens t ≠ 0 := by
  induction tokens with
  | nil => simp at h
  | cons sp rest ih =>
    obtain ⟨s, p⟩ := sp
    by_cases hst : s = t
    · subst hst
      rw [term_count_cons_self]
      omega
    · rw [term_count_cons_ne hst]
      rw [List.map_cons] at h
      rcases List.mem_cons.mp h with he | h'
      · exact absurd he.symm hst
      · exact ih h'

/-! ## The claims -/

/-- C2: starting from the empty index, after every sequence of
`add_document` calls every term's `doc_ids` sequence is strictly
increasing; in particular ingesting doc 10, then doc 3, then doc 7, each
containing "term" once, yields `doc_ids = [3, 7, 10]`. -/
theorem doc_ids_strictly_increasing
    (calls : List (Nat × List (String × Nat))) :
    (∀ t p,
      alist_get ((calls.foldl (fun i c => add_document i c.1 c.2)
        InvertedIndex.empty).postings) t = some p →
      List.Pairwise (· < ·) p.doc_ids) ∧
    (alist_get sorted_insert_example.postings "term").map PostingList.doc_ids =
      some [3, 7, 10] := by
  constructor
  · intro t p hp
    exact sorted_ingest_fold calls t p hp
  · rfl

theorem doc_ids_strictly_increasing_witness :
    List.Pairwise (· < ·)
      (PostingList.new [3, 7, 10] [1, 1, 1] [[0], [0], [0]]).doc_ids := by
  have h := doc_ids_strictly_increasing
    [(10, [("term", 0)]), (3, [("term", 0)]), (7, [("term", 0)])]
  exact h.1 "term" (PostingList.new [3, 7, 10] [1, 1, 1] [[0], [0], [0]]) (by rfl)

/-- C3: the parallel-array alignment invariant — equal lengths of the
three sequences and `term_frequencies[i] = positions[i].len()` for every
index — holds for every posting list reachable by lookup after any
`add_document` call, provided it held before the call. -/
theorem add_document_preserves_alignment (idx : InvertedIndex) (d : Nat)
    (tokens : List (String × Nat))
    (h : ∀ t p, alist_get idx.postings t = some p → aligned_claim p) :
    ∀ t p, alist_get (add_document idx d tokens).postings t = some p →
      aligned_claim p := by
  have ha : postings_aligned idx.postings := by
    intro t p hp
    exact (aligned_claim_iff p).mp (h t p hp)
  intro t p hp
  exact (aligned_claim_iff p).mpr (aligned_add_document ha t p hp)

theorem add_document_preserves_alignment_witness :
    aligned_claim (PostingList.new [1] [1] [[0]]) := by
  have h := add_document_preserves_alignment InvertedIndex.empty 1
    [("hello", 0)]
    (by
      intro t p hp
      simp [InvertedIndex.empty, InvertedIndex.new, alist_get] at hp)
  exact h "hello" (PostingList.new [1] [1] [[0]]) (by rfl)

/-- C5: `rank` on a term with no posting list returns `none` (absence),
never an empty sequence. -/
theorem rank_none_of_unknown_term (idx : InvertedIndex) (q : String)
    (h : alist_get idx.postings q = none) : rank idx q = none := by
  simp [rank, rank_scored, h]

theorem rank_none_of_unknown_term_witness :
    rank InvertedIndex.empty "rust" = none :=
  rank_none_of_unknown_term InvertedIndex.empty "rust" rfl

/-- C7: `add_document` is total: under the alignment invariant every
array access and `Vec::insert` of the loop is in bounds (so no panic for
any `doc_id`/`tokens` input), and an empty token sequence records
`doc_lengths[doc_id] = 0` while leaving every posting list unchanged. -/
theorem add_document_total_and_empty (idx : InvertedIndex) (d : Nat) :
    (∀ tokens, postings_aligned idx.postings →
      tokens_safe idx.postings d tokens) ∧
    (add_document idx d []).postings = idx.postings ∧
    alist_get (add_document idx d []).doc_lengths d = some 0 := by
  refine ⟨fun tokens ha => tokens_safe_of_aligned tokens idx.postings ha,
    rfl, ?_⟩
  exact add_document_doc_lengths_self idx d []

theorem add_document_total_and_empty_witness :
    tokens_safe InvertedIndex.empty.postings 1 [("hello", 0)] :=
  (add_document_total_and_empty InvertedIndex.empty 1).1 [("hello", 0)]
    empty_postings_aligned

/-- C8: calling `rank` leaves the receiver unchanged — the state after the
call is the state before it, and only the returned value is produced.
(In the source this is enforced by `rank` taking `&self` on a type with no
interior mutability, which the state-transformer model makes explicit.) -/
theorem rank_never_mutates (idx : InvertedIndex) (q : String) :
    (rank_call idx q).1 = idx ∧ (rank_call idx q).2 = rank idx q :=
  ⟨rfl, rfl⟩

/-- C10: ingestion frame property — `add_document` leaves the posting
list of every term not occurring in `tokens` unchanged, and leaves
`doc_lengths[d']` unchanged for every `d'` other than the ingested id. -/
theorem add_document_frame (idx : InvertedIndex) (doc_id : Nat)
    (tokens : List (String × Nat)) :
    (∀ t, t ∉ tokens.map Prod.fst →
      alist_get (add_document idx doc_id tokens).postings t =
        alist_get idx.postings t) ∧
    (∀ d', d' ≠ doc_id →
      alist_get (add_document idx doc_id tokens).doc_lengths d' =
        alist_get idx.doc_lengths d') := by
  constructor
  · intro t ht
    exact fold_tokens_get_not_mem tokens idx.postings t ht
  · intro d' hd
    exact add_document_doc_lengths_ne tokens (fun he => hd he.symm)

theorem add_document_frame_witness :
    alist_get (add_document (add_document InvertedIndex.empty 1 [("a", 0)]) 2
      [("b", 0)]).postings "a" =
      alist_get (add_document InvertedIndex.empty 1 [("a", 0)]).postings "a" ∧
    alist_get (add_document (add_document InvertedIndex.empty 1 [("a", 0)]) 2
      [("b", 0)]).doc_lengths 1 =
      alist_get (add_document InvertedIndex.empty 1 [("a", 0)]).doc_lengths 1 := by
  have h := add_document_frame
    (add_document InvertedIndex.empty 1 [("a", 0)]) 2 [("b", 0)]
  exact ⟨h.1 "a" (by decide), h.2 1 (by decide)⟩

/-- C4: re-ingesting the same `doc_id` overwrites its recorded length with
the length of the second token sequence (no accumulation), while for a
term occurring in both calls the frequency/position entry for that
document is extended additively — by the occurrence count and the offsets
of the second call — not reset. -/
theorem readd_overwrites_length_extends_postings (idx : InvertedIndex)
    (d : Nat) (toks₁ toks₂ : List (String × Nat)) (t : String)
    (hs : postings_sorted idx.postings) (ha : postings_aligned idx.postings)
    (h1 : t ∈ toks₁.map Prod.fst) (h2 : t ∈ toks₂.map Prod.fst) :
    alist_get (add_document (add_document idx d toks₁) d toks₂).doc_lengths d =
      some toks₂.length ∧
    term_count toks₂ t ≠ 0 ∧
    ∃ f ps, index_entry (add_document idx d toks₁) t d = some (f, ps) ∧
      index_entry (add_document (add_document idx d toks₁) d toks₂) t d =
        some (f + term_count toks₂ t, ps ++ term_positions toks₂ t) := by
  refine ⟨add_document_doc_lengths_self _ d toks₂,
    term_count_ne_zero_of_mem h2, ?_⟩
  have hpe1 : (add_document idx d toks₁).postings =
      toks₁.foldl (fun mm tp => add_token mm d tp.1 tp.2) idx.postings := rfl
  have hpe2 : (add_document (add_document idx d toks₁) d toks₂).postings =
      toks₂.foldl (fun mm tp => add_token mm d tp.1 tp.2)
        (add_document idx d toks₁).postings := rfl
  have hs1 : postings_sorted (add_document idx d toks₁).postings :=
    sorted_add_document hs
  have ha1 : postings_aligned (add_document idx d toks₁).postings :=
    aligned_add_document ha
  have hfold1 := @entry_of_fold d toks₁ idx.postings t hs ha
  have hfold2 :=
    @entry_of_fold d toks₂ (add_document idx d toks₁).postings t hs1 ha1
  have hc1 := term_count_ne_zero_of_mem h1
  have hentry1 : ∃ f ps,
      index_entry (add_document idx d toks₁) t d = some (f, ps) := by
    unfold index_entry
    rw [hpe1, hfold1]
    cases he : entry_of idx.postings t d with
    | none =>
      refine ⟨term_count toks₁ t, term_positions toks₁ t, ?_⟩
      show (if term_count toks₁ t = 0 then none
        else some (term_count toks₁ t, term_positions toks₁ t)) =
        some (term_count toks₁ t, term_positions toks₁ t)
      rw [if_neg hc1]
    | some fps =>
      exact ⟨fps.1 + term_count toks₁ t, fps.2 ++ term_positions toks₁ t, rfl⟩
  obtain ⟨f, ps, hf⟩ := hentry1
  refine ⟨f, ps, hf, ?_⟩
  unfold index_entry at hf ⊢
  rw [hpe2, hfold2, hf]

theorem readd_overwrites_length_extends_postings_witness :
    alist_get (add_document (add_document InvertedIndex.empty 1
      [("foo", 0), ("foo", 2)]) 1 [("foo", 5)]).doc_lengths 1 = some 1 ∧
    term_count [("foo", 5)] "foo" ≠ 0 ∧
    ∃ f ps,
      index_entry (add_document InvertedIndex.empty 1
        [("foo", 0), ("foo", 2)]) "foo" 1 = some (f, ps) ∧
      index_entry (add_document (add_document InvertedIndex.empty 1
        [("foo", 0), ("foo", 2)]) 1 [("foo", 5)]) "foo" 1 =
        some (f + term_count [("foo", 5)] "foo",
          ps ++ term_positions [("foo", 5)] "foo") := by
  have h := readd_overwrites_length_extends_postings InvertedIndex.empty 1
    [("foo", 0), ("foo", 2)] [("foo", 5)] "foo"
    empty_postings_sorted empty_postings_aligned (by simp) (by simp)
  exact h

/-- C6 counterexample: on a fixture whose frequency array is shorter than
its doc-id array (buildable through the unvalidated `PostingList::new`
path), document 2 has a nonzero recorded length and is listed in the
posting, yet `rank` excludes it — the `zip` of the parallel arrays drops
it — so exclusion is not exactly the no-length/zero-length rule. -/
theorem rank_exclusion_counterexample :
    alist_get truncated_fixture.postings "term" =
      some (PostingList.new [1, 2] [1] [[0]]) ∧
    (2 : Nat) ∈ (PostingList.new [1, 2] [1] [[0]]).doc_ids ∧
    alist_get truncated_fixture.doc_lengths 2 = some 1 ∧
    rank truncated_fixture "term" = some [1] ∧
    (2 : Nat) ∉ ([1] : List Nat) := by
  refine ⟨rfl, by decide, rfl, ?_, by decide⟩
  simp [rank, rank_scored, tf_idf_scores, score_fn, truncated_fixture,
    InvertedIndex.new, PostingList.new, alist_get, List.mergeSort_singleton]

/-- C6 amended: when the posting's frequency array is at least as long as
its doc-id array (a consequence of the §3 alignment invariant), `rank`
returns a present sequence that excludes exactly the documents with no or
zero recorded length, and is present-but-empty when every document of the
posting is excluded. -/
theorem rank_exclusion_amended (idx : InvertedIndex) (q : String)
    (posting : PostingList)
    (hg : alist_get idx.postings q = some posting)
    (hlen : posting.doc_ids.length ≤ posting.term_frequencies.length) :
    ∃ res, rank idx q = some res ∧
      (∀ d, d ∈ res ↔ d ∈ posting.doc_ids ∧
        ∃ len, alist_get idx.doc_lengths d = some len ∧ len ≠ 0) ∧
      ((∀ d ∈ posting.doc_ids,
        ¬ ∃ len, alist_get idx.doc_lengths d = some len ∧ len ≠ 0) →
        res = []) := by
  obtain ⟨res, hres⟩ := rank_some_of_posting hg
  refine ⟨res, hres, rank_mem_iff hg hlen hres, ?_⟩
  intro hall
  rw [List.eq_nil_iff_forall_not_mem]
  intro d hd
  rw [rank_mem_iff hg hlen hres d] at hd
  exact hall d hd.1 hd.2

theorem rank_exclusion_amended_witness :
    ∃ res, rank no_lengths_fixture "term" = some res ∧
      (∀ d, d ∈ res ↔ d ∈ (PostingList.new [1] [2] [[0, 1]]).doc_ids ∧
        ∃ len, alist_get no_lengths_fixture.doc_lengths d = some len ∧
          len ≠ 0) ∧
      ((∀ d ∈ (PostingList.new [1] [2] [[0, 1]]).doc_ids,
        ¬ ∃ len, alist_get no_lengths_fixture.doc_lengths d = some len ∧
          len ≠ 0) → res = []) :=
  rank_exclusion_amended no_lengths_fixture "term"
    (PostingList.new [1] [2] [[0, 1]]) rfl (by decide)

/-- C9 counterexample: on a fixture whose frequency array is shorter than
its doc-id array, the present result is not, as a set, all posting
documents with nonzero recorded length: document 4 qualifies but is
dropped by the `zip`. -/
theorem rank_membership_counterexample :
    rank truncated_fixture2 "w" = some [3] ∧
    (4 : Nat) ∈ (PostingList.new [3, 4] [1] [[0]]).doc_ids ∧
    alist_get truncated_fixture2.doc_lengths 4 = some 2 ∧
    (4 : Nat) ∉ ([3] : List Nat) ∧
    (PostingList.new [3, 4] [1] [[0]]).doc_ids.Nodup := by
  refine ⟨?_, by decide, rfl, by decide, by decide⟩
  simp [rank, rank_scored, tf_idf_scores, score_fn, truncated_fixture2,
    InvertedIndex.new, PostingList.new, alist_get, List.mergeSort_singleton]

/-- C9 amended: when the posting's frequency array is at least as long as
its doc-id array (a consequence of the §3 alignment invariant), a present
`rank` result contains, as a set, exactly the posting's documents whose
recorded length exists and is nonzero, and is duplicate-free whenever
`doc_ids` is. -/
theorem rank_membership_amended (idx : InvertedIndex) (q : String)
    (posting : PostingList) (res : List Nat)
    (hg : alist_get idx.postings q = some posting)
    (hlen : posting.doc_ids.length ≤ posting.term_frequencies.length)
    (hr : rank idx q = some res) :
    (∀ d, d ∈ res ↔ d ∈ posting.doc_ids ∧
      ∃ len, alist_get idx.doc_lengths d = some len ∧ len ≠ 0) ∧
    (posting.doc_ids.Nodup → res.Nodup) := by
  refine ⟨rank_mem_iff hg hlen hr, ?_⟩
  intro hnd
  have hperm := rank_res_perm hg hr
  have hsub := tf_idf_scores_fst_sublist idx.doc_lengths
    (Real.logb 10 ((idx.doc_lengths.length : ℝ) /
      (posting.doc_ids.length : ℝ)))
    posting.doc_ids posting.term_frequencies
  exact hperm.nodup_iff.mpr (hsub.nodup hnd)

theorem rank_membership_amended_witness :
    (∀ d, d ∈ ([] : List Nat) ↔
      d ∈ (PostingList.new [1] [2] [[0, 1]]).doc_ids ∧
      ∃ len, alist_get no_lengths_fixture.doc_lengths d = some len ∧
        len ≠ 0) ∧
    ((PostingList.new [1] [2] [[0, 1]]).doc_ids.Nodup →
      ([] : List Nat).Nodup) :=
  rank_membership_amended no_lengths_fixture "term"
    (PostingList.new [1] [2] [[0, 1]]) [] rfl (by decide)
    (by simp [rank, rank_scored, tf_idf_scores, score_fn, no_lengths_fixture,
      InvertedIndex.new, PostingList.new, alist_get])

theorem tf_idf_scores_rank_example (idf : ℝ) :
    tf_idf_scores [(1, 1), (2, 3), (3, 1)]
      (⟨[1, 2], [1, 2], [[0], [0, 1]]⟩ : PostingList) idf =
      [(1, idf), (2, 2 / 3 * idf)] := by
  simp only [tf_idf_scores, List.zip_cons_cons, List.zip_nil_right,
    List.filterMap_cons, List.filterMap_nil, score_fn, alist_get]
  norm_num

theorem rank_scored_rank_example :
    rank_scored rank_example "rust" =
      some [(1, Real.logb 10 (3 / 2)), (2, 2 / 3 * Real.logb 10 (3 / 2))] := by
  have hg : alist_get rank_example.postings "rust" =
      some (⟨[1, 2], [1, 2], [[0], [0, 1]]⟩ : PostingList) := by rfl
  have hdl : rank_example.doc_lengths = [(1, 1), (2, 3), (3, 1)] := by rfl
  have hle : ((2 : ℝ) / 3 * Real.logb 10 (3 / 2)) ≤ Real.logb 10 (3 / 2) := by
    have hidf : (0 : ℝ) ≤ Real.logb 10 ((3 : ℝ) / 2) :=
      Real.logb_nonneg (by norm_num) (by norm_num)
    nth_rewrite 2 [← one_mul (Real.logb 10 ((3 : ℝ) / 2))]
    apply mul_le_mul_of_nonneg_right _ hidf
    norm_num
  simp only [rank_scored, hg, hdl]
  norm_num [-Prod.mk_one_one]
  rw [tf_idf_scores_rank_example]
  rw [List.mergeSort_of_sorted (by simp [hle])]

/-- C1: the scored survivor list produced by `rank` is sorted by
descending TF-IDF score (`tf = occurrences / recorded length`,
`idf = log10(N / N_t)` with `N = doc_lengths.len()` and
`N_t = doc_ids.len()`, per `score_fn` and `rank_scored`); `rank` returns
its document ids; and on the three-document example — doc 1 = "rust",
doc 2 = "rust rust extra", doc 3 = "extra" — `rank "rust"` returns
exactly `[1, 2]`. -/
theorem rank_orders_by_descending_tf_idf :
    (∀ (idx : InvertedIndex) (q : String) (l : List (Nat × ℝ)),
      rank_scored idx q = some l →
      List.Pairwise (fun a b : Nat × ℝ => b.2 ≤ a.2) l) ∧
    (∀ (idx : InvertedIndex) (q : String),
      rank idx q = (rank_scored idx q).map (List.map Prod.fst)) ∧
    rank rank_example "rust" = some [1, 2] := by
  refine ⟨fun idx q l h => rank_scored_pairwise h, fun idx q => rfl, ?_⟩
  rw [rank, rank_scored_rank_example]
  rfl

theorem rank_orders_by_descending_tf_idf_witness :
    List.Pairwise (fun a b : Nat × ℝ => b.2 ≤ a.2)
      [((1 : Nat), Real.logb 10 (3 / 2)),
        ((2 : Nat), 2 / 3 * Real.logb 10 (3 / 2))] :=
  rank_orders_by_descending_tf_idf.1 rank_example "rust" _
    rank_scored_rank_example
